import Mathlib

/-!
Shallow embedding of the SS-Utilities repository and proofs about it.

Embedded code:
* ss_utilities/scan_files.py — the extension/content file scanner
  (handle_options, the extension glob loop of scan_files, find_in_files with
  its optional in-place rewrite);
* ss_utilities/error_stats.py — r_squared and wmape over exact rationals;
* ss_utilities/generic_tools.py — monthdelta with Python floor division and
  nonnegative modulus, and the datetime.replace range validation it ends with.

Files are modelled as a base name (list of characters) with raw byte contents
(list of naturals); the filesystem root of a scan is either missing, an
existing non-directory, or a directory given by its ordered entries.  The glob
library call is modelled by fnmatch over patterns built from literal
characters and the star wildcard — the only pattern shapes scan_files ever
builds (star-dot-extension) — together with the rule that entries whose name
starts with a dot are only matched by patterns starting with a dot.  A fuel
argument bounds the fnmatch recursion so that everything evaluates by rfl;
the fuel never runs out once it is at least pattern length + name length + 1,
which is what the wrapper supplies.
-/

/-- A directory entry as the scanner sees it: a base name and raw byte
contents. -/
structure SFile where
  name : List Char
  content : List Nat
  deriving DecidableEq

/-- Python bytes substring test, the semantics of the expression
(find in content) at scan_files.py line 77: the needle is a prefix of some
suffix of the haystack. -/
def containsSub (need : List Nat) : List Nat → Bool
  | [] => need.isPrefixOf []
  | c :: cs => need.isPrefixOf (c :: cs) || containsSub need cs

/-- Concatenation of per-element results, used to state what the extension
loop of scan_files accumulates. -/
def flatMapL {α β : Type} (g : α → List β) : List α → List β
  | [] => []
  | a :: as => g a ++ flatMapL g as

/-- Worker for Python bytes.replace with a nonempty needle (head n, tail tl):
scan left to right; on a match emit the replacement R and skip the remaining
needle bytes (the Nat argument counts bytes still to skip), otherwise copy one
byte. -/
def replAux (n : Nat) (tl R : List Nat) : Nat → List Nat → List Nat
  | _, [] => []
  | 0, c :: cs =>
      if (n :: tl).isPrefixOf (c :: cs) then R ++ replAux n tl R tl.length cs
      else c :: replAux n tl R 0 cs
  | k + 1, _ :: cs => replAux n tl R k cs

/-- Python bytes.replace(find, replace) as called at scan_files.py line 82:
leftmost non-overlapping occurrences are replaced; with an empty needle CPython
inserts the replacement at every gap. -/
def pyReplace (s N R : List Nat) : List Nat :=
  match N with
  | [] => R ++ flatMapL (fun c => c :: R) s
  | n :: tl => replAux n tl R 0 s

/-- Worker for the Python non-overlapping substring count, same scan as
replAux. -/
def cntAux (n : Nat) (tl : List Nat) : Nat → List Nat → Nat
  | _, [] => 0
  | 0, c :: cs =>
      if (n :: tl).isPrefixOf (c :: cs) then cntAux n tl tl.length cs + 1
      else cntAux n tl 0 cs
  | k + 1, _ :: cs => cntAux n tl k cs

/-- Python bytes.count: number of leftmost non-overlapping occurrences. -/
def pyCount (s N : List Nat) : Nat :=
  match N with
  | [] => s.length + 1
  | n :: tl => cntAux n tl 0 s

/-- The loop of find_in_files (scan_files.py lines 71-83) over files with their
contents: returns the matched files in order, the per-file on-disk contents
after the optional rewrite, and the number of file reads performed. -/
def scanLoop (find : List Nat) (rep : Option (List Nat)) :
    List SFile → List SFile × List SFile × Nat
  | [] => ([], [], 0)
  | f :: fs =>
      (if containsSub find f.content then f :: (scanLoop find rep fs).1
       else (scanLoop find rep fs).1,
       (match rep with
        | some R =>
            if containsSub find f.content then (⟨f.name, pyReplace f.content find R⟩ : SFile)
            else f
        | none => f) :: (scanLoop find rep fs).2.1,
       (scanLoop find rep fs).2.2 + 1)

/-- find_in_files (scan_files.py lines 68-83): with no needle the input list is
returned at once, nothing is read and nothing written; otherwise the loop
runs. -/
def findInFiles (files : List SFile) (find : Option (List Nat)) (rep : Option (List Nat)) :
    List SFile × List SFile × Nat :=
  match find with
  | none => (files, files, 0)
  | some N => scanLoop N rep files

/-- Fuel-indexed fnmatch for patterns of literal characters and the star
wildcard, as glob applies them to entry names. -/
def fnmatchFuel : Nat → List Char → List Char → Bool
  | 0, _, _ => false
  | _ + 1, [], name => name.isEmpty
  | fuel + 1, p :: ps, name =>
      if p = '*' then
        fnmatchFuel fuel ps name ||
          (match name with
           | [] => false
           | _ :: cs => fnmatchFuel fuel (p :: ps) cs)
      else
        match name with
        | [] => false
        | c :: cs => p == c && fnmatchFuel fuel ps cs

/-- fnmatch with adequate fuel. -/
def fnmatchB (pat name : List Char) : Bool :=
  fnmatchFuel (pat.length + name.length + 1) pat name

/-- glob name matching for one path component: fnmatch plus the rule that a
name starting with a dot is only matched by a pattern starting with a dot. -/
def globMatch (pat name : List Char) : Bool :=
  if name.head? == some '.' && !(pat.head? == some '.') then false
  else fnmatchB pat name

/-- The pattern scan_files builds for one requested extension at line 96:
star, dot, then the extension text (itself possibly the star wildcard). -/
def extPattern (ext : List Char) : List Char :=
  '*' :: '.' :: ext

/-- One glob call: the directory entries whose name matches the pattern, in
directory order. -/
def globDir (dir : List SFile) (pat : List Char) : List SFile :=
  dir.filter (fun f => globMatch pat f.name)

/-- The extension loop of scan_files (lines 94-96): an accumulator grown by
one glob call per requested extension, in request order. -/
def scanEnumerate (dir : List SFile) (exts : List (List Char)) : List SFile :=
  exts.foldl (fun acc e => acc ++ globDir dir (extPattern e)) []

/-- The files the specification says the star extension selects once hidden
entries are excluded: a name that is not hidden and carries a dot.  Spec-side
predicate used to state the amended C1. -/
def matchesAnyExt (name : List Char) : Bool :=
  !(name.head? == some '.') && name.contains '.'

/-- The root path of a scan: missing, an existing non-directory, or a
directory with its ordered entries. -/
inductive FS where
  | missing : FS
  | nondir : FS
  | dir : List SFile → FS

/-- os.path.isdir on the root. -/
def isdir : FS → Bool
  | FS.dir _ => true
  | _ => false

/-- glob sees no entries unless the root is a directory: globbing under a
missing path or a plain file yields nothing and raises nothing. -/
def fsEntries : FS → List SFile
  | FS.dir es => es
  | _ => []

/-- handle_options (scan_files.py lines 51-56): the only path validation in
the program, failing when the path is not an existing directory. -/
def handleOptions (root : FS) : Except String FS :=
  if isdir root then Except.ok root
  else Except.error "The path you specified does not exist."

/-- scan_files called directly (lines 90-103): no path validation of its own;
it enumerates by extension, then filters and optionally rewrites. -/
def scanFilesRun (root : FS) (exts : List (List Char)) (find rep : Option (List Nat)) :
    List SFile × List SFile × Nat :=
  findInFiles (scanEnumerate (fsEntries root) exts) find rep

/-- main (scan_files.py lines 105-116): parse_options validates the path
before scan_files ever runs. -/
def mainRun (root : FS) (exts : List (List Char)) (find rep : Option (List Nat)) :
    Except String (List SFile × List SFile × Nat) :=
  match handleOptions root with
  | Except.error e => Except.error e
  | Except.ok r => Except.ok (scanFilesRun r exts find rep)

/-- np.mean over exact rationals. -/
def npMean (xs : List ℚ) : ℚ := xs.sum / (xs.length : ℚ)

/-- SS_tot of error_stats.r_squared (line 41). -/
def ssTot (ys : List ℚ) : ℚ := (ys.map (fun y => (y - npMean ys) ^ 2)).sum

/-- SS_res of error_stats.r_squared (line 42): elementwise squared residuals
of actuals against predictions. -/
def ssRes (ps ys : List ℚ) : ℚ := ((ys.zip ps).map (fun q => (q.1 - q.2) ^ 2)).sum

/-- error_stats.r_squared (lines 40-43). -/
def rSquared (ps ys : List ℚ) : ℚ := 1 - ssRes ps ys / ssTot ys

/-- error_stats.wmape (lines 103-106): the optional norms and weights default
to the actuals; elementwise absolute percentage error, then weighted
average. -/
def wmape (ps ys : List ℚ) (norms weights : Option (List ℚ)) : ℚ :=
  let ns := match norms with | none => ys | some v => v
  let ws := match weights with | none => ys | some v => v
  let mapes := List.zipWith (fun d nv => |d / nv| * 100)
    (List.zipWith (fun f y => f - y) ps ys) ns
  (List.zipWith (fun w m => w * m) ws mapes).sum / ws.sum

/-- A Python datetime restricted to its date fields; the code rewrites only
day, month and year and keeps the rest. -/
structure PyDate where
  year : Int
  month : Int
  day : Int
  deriving DecidableEq

/-- Gregorian leap year, as calendar.monthrange determines it. -/
def isLeap (y : Int) : Bool :=
  (y % 4 == 0 && y % 100 != 0) || y % 400 == 0

/-- calendar.monthrange(y, m)[1]: the number of days in the month. -/
def daysInMonth (y m : Int) : Int :=
  if m = 2 then (if isLeap y then 29 else 28)
  else if m = 4 ∨ m = 6 ∨ m = 9 ∨ m = 11 then 30 else 31

/-- datetime.replace(year, month, day): validates the new fields and raises
ValueError when one is out of range. -/
def dateReplace (y m d : Int) : Except String PyDate :=
  if 1 ≤ y ∧ y ≤ 9999 ∧ 1 ≤ m ∧ m ≤ 12 ∧ 1 ≤ d ∧ d ≤ daysInMonth y m then
    Except.ok ⟨y, m, d⟩
  else Except.error "ValueError: field out of range"

/-- generic_tools.monthdelta (lines 234-241), with Python floor division and
nonnegative modulus; note the day clamp uses the source month (y, m) of dt,
not the target month. -/
def monthdelta (dt : PyDate) (delta : Int) : Except String PyDate :=
  let m := dt.month
  let newM0 := (m + delta) % 12
  let newY := dt.year + (m + delta - 1) / 12
  let newM := if newM0 = 0 then 12 else newM0
  let newD := min dt.day (daysInMonth dt.year dt.month)
  dateReplace newY newM newD

theorem replAux_skip (n : Nat) (tl R : List Nat) :
    ∀ (s : List Nat) (k : Nat), replAux n tl R k s = replAux n tl R 0 (s.drop k) := by
  intro s
  induction s with
  | nil => intro k; cases k <;> rfl
  | cons c cs ih =>
      intro k
      cases k with
      | zero => rfl
      | succ j =>
          show replAux n tl R j cs = replAux n tl R 0 ((c :: cs).drop (j + 1))
          rw [List.drop_succ_cons]
          exact ih j

theorem replAux_cons (n : Nat) (tl R : List Nat) (c : Nat) (cs : List Nat) :
    replAux n tl R 0 (c :: cs) =
      if (n :: tl).isPrefixOf (c :: cs) then R ++ replAux n tl R 0 (cs.drop tl.length)
      else c :: replAux n tl R 0 cs := by
  show (if (n :: tl).isPrefixOf (c :: cs) then R ++ replAux n tl R tl.length cs
        else c :: replAux n tl R 0 cs) = _
  rw [replAux_skip]

theorem cntAux_skip (n : Nat) (tl : List Nat) :
    ∀ (s : List Nat) (k : Nat), cntAux n tl k s = cntAux n tl 0 (s.drop k) := by
  intro s
  induction s with
  | nil => intro k; cases k <;> rfl
  | cons c cs ih =>
      intro k
      cases k with
      | zero => rfl
      | succ j =>
          show cntAux n tl j cs = cntAux n tl 0 ((c :: cs).drop (j + 1))
          rw [List.drop_succ_cons]
          exact ih j

theorem cntAux_cons (n : Nat) (tl : List Nat) (c : Nat) (cs : List Nat) :
    cntAux n tl 0 (c :: cs) =
      if (n :: tl).isPrefixOf (c :: cs) then cntAux n tl 0 (cs.drop tl.length) + 1
      else cntAux n tl 0 cs := by
  show (if (n :: tl).isPrefixOf (c :: cs) then cntAux n tl tl.length cs + 1
        else cntAux n tl 0 cs) = _
  rw [cntAux_skip]

theorem isPrefixOf_true_iff : ∀ (p s : List Nat), p.isPrefixOf s = true ↔ p <+: s := by
  intro p
  induction p with
  | nil => intro s; simp [List.isPrefixOf]
  | cons a as ih =>
      intro s
      cases s with
      | nil => simp [List.isPrefixOf]
      | cons b bs => simp [List.isPrefixOf, List.cons_prefix_cons, ih bs]

theorem containsSub_iff (N : List Nat) : ∀ s : List Nat, containsSub N s = true ↔ N <:+: s := by
  intro s
  induction s with
  | nil =>
      show N.isPrefixOf [] = true ↔ N <:+: []
      rw [isPrefixOf_true_iff]
      simp [List.prefix_nil, List.infix_nil]
  | cons c cs ih =>
      show (N.isPrefixOf (c :: cs) || containsSub N cs) = true ↔ N <:+: c :: cs
      rw [Bool.or_eq_true, isPrefixOf_true_iff, ih, List.infix_cons_iff]

theorem pre_of_replAux (n : Nat) (tl : List Nat) (r : Nat) (rtl : List Nat) :
    ∀ (s m : List Nat), m ≠ [] → (∀ b ∈ m, b ∉ r :: rtl) →
      m <+: replAux n tl (r :: rtl) 0 s → m <+: s := by
  intro s
  induction s with
  | nil =>
      intro m hm _ hp
      exact absurd (List.prefix_nil.mp hp) hm
  | cons c cs ih =>
      intro m hm hmem hp
      rw [replAux_cons] at hp
      obtain ⟨b, m2, rfl⟩ := List.exists_cons_of_ne_nil hm
      by_cases hmatch : (n :: tl).isPrefixOf (c :: cs) = true
      · rw [if_pos hmatch] at hp
        have hbr : b = r := (List.cons_prefix_cons.mp hp).1
        exact absurd (by rw [hbr]; exact List.mem_cons_self r rtl)
          (hmem b (List.mem_cons_self b m2))
      · rw [if_neg hmatch] at hp
        obtain ⟨hbc, hm2⟩ := List.cons_prefix_cons.mp hp
        cases m2 with
        | nil => exact List.cons_prefix_cons.mpr ⟨hbc, by simp⟩
        | cons x xs =>
            have hrest : (x :: xs) <+: cs :=
              ih (x :: xs) (List.cons_ne_nil x xs)
                (fun y hy => hmem y (List.mem_cons_of_mem b hy)) hm2
            exact List.cons_prefix_cons.mpr ⟨hbc, hrest⟩

theorem isInfix_append_drop (N rest : List Nat) (hN : N ≠ []) :
    ∀ R : List Nat, (∀ b ∈ N, b ∉ R) → N <:+: R ++ rest → N <:+: rest := by
  intro R
  induction R with
  | nil => intro _ h; simpa using h
  | cons r rs ih =>
      intro hd h
      rw [List.cons_append] at h
      rcases List.infix_cons_iff.mp h with hpre | hinf
      · obtain ⟨b, m2, rfl⟩ := List.exists_cons_of_ne_nil hN
        have hbr : b = r := (List.cons_prefix_cons.mp hpre).1
        exact absurd (by rw [hbr]; exact List.mem_cons_self r rs)
          (hd b (List.mem_cons_self b m2))
      · exact ih (fun b hb hmem => hd b hb (List.mem_cons_of_mem r hmem)) hinf

theorem not_infix_replAux (n : Nat) (tl : List Nat) (r : Nat) (rtl : List Nat)
    (hd : ∀ b ∈ n :: tl, b ∉ r :: rtl) :
    ∀ (k : Nat) (s : List Nat), s.length ≤ k →
      ¬ (n :: tl) <:+: replAux n tl (r :: rtl) 0 s := by
  intro k
  induction k with
  | zero =>
      intro s hs
      have hsnil : s = [] := List.length_eq_zero.mp (Nat.le_zero.mp hs)
      rw [hsnil]
      intro h
      exact absurd (List.infix_nil.mp h) (List.cons_ne_nil n tl)
  | succ k ih =>
      intro s hs h
      cases s with
      | nil => exact absurd (List.infix_nil.mp h) (List.cons_ne_nil n tl)
      | cons c cs =>
          rw [replAux_cons] at h
          by_cases hm : (n :: tl).isPrefixOf (c :: cs) = true
          · rw [if_pos hm] at h
            have hlen : (cs.drop tl.length).length ≤ k := by
              rw [List.length_drop]
              simp only [List.length_cons] at hs
              omega
            exact ih (cs.drop tl.length) hlen
              (isInfix_append_drop (n :: tl) _ (List.cons_ne_nil n tl) (r :: rtl) hd h)
          · rw [if_neg hm] at h
            rcases List.infix_cons_iff.mp h with hpre | hinf
            · obtain ⟨hnc, htl⟩ := List.cons_prefix_cons.mp hpre
              cases tl with
              | nil =>
                  refine hm ?_
                  rw [isPrefixOf_true_iff]
                  exact List.cons_prefix_cons.mpr ⟨hnc, by simp⟩
              | cons t ts =>
                  have htlcs : (t :: ts) <+: cs :=
                    pre_of_replAux n (t :: ts) r rtl cs (t :: ts) (List.cons_ne_nil t ts)
                      (fun b hb => hd b (List.mem_cons_of_mem n hb)) htl
                  refine hm ?_
                  rw [isPrefixOf_true_iff]
                  exact List.cons_prefix_cons.mpr ⟨hnc, htlcs⟩
            · have hlen : cs.length ≤ k := by
                simp only [List.length_cons] at hs
                omega
              exact ih cs hlen hinf

theorem cntAux_append_self (r : Nat) (rtl : List Nat) (rest : List Nat) :
    cntAux r rtl 0 ((r :: rtl) ++ rest) = cntAux r rtl 0 rest + 1 := by
  have hc : (r :: rtl).isPrefixOf (r :: (rtl ++ rest)) = true := by
    rw [isPrefixOf_true_iff]
    exact List.prefix_append (r :: rtl) rest
  rw [List.cons_append, cntAux_cons, if_pos hc, List.drop_left]

theorem cntAux_cons_ne (r : Nat) (rtl : List Nat) (c : Nat) (hne : c ≠ r) (xs : List Nat) :
    cntAux r rtl 0 (c :: xs) = cntAux r rtl 0 xs := by
  rw [cntAux_cons, if_neg]
  intro hT
  exact hne ((List.cons_prefix_cons.mp ((isPrefixOf_true_iff _ _).mp hT)).1).symm

theorem cnt_replAux (n : Nat) (tl : List Nat) (r : Nat) (rtl : List Nat) :
    ∀ (k : Nat) (s : List Nat), s.length ≤ k → (∀ b ∈ s, b ∉ r :: rtl) →
      cntAux r rtl 0 (replAux n tl (r :: rtl) 0 s) = cntAux n tl 0 s := by
  intro k
  induction k with
  | zero =>
      intro s hs _
      have hsnil : s = [] := List.length_eq_zero.mp (Nat.le_zero.mp hs)
      rw [hsnil]
      rfl
  | succ k ih =>
      intro s hs hsR
      cases s with
      | nil => rfl
      | cons c cs =>
          rw [replAux_cons, cntAux_cons n tl c cs]
          by_cases hm : (n :: tl).isPrefixOf (c :: cs) = true
          · rw [if_pos hm, if_pos hm, cntAux_append_self]
            have hlen : (cs.drop tl.length).length ≤ k := by
              rw [List.length_drop]
              simp only [List.length_cons] at hs
              omega
            rw [ih (cs.drop tl.length) hlen
              (fun b hb => hsR b (List.mem_cons_of_mem c (List.drop_subset tl.length cs hb)))]
          · rw [if_neg hm, if_neg hm]
            have hcr : c ≠ r := by
              intro hcr
              exact (hsR c (List.mem_cons_self c cs)) (by rw [hcr]; exact List.mem_cons_self r rtl)
            rw [cntAux_cons_ne r rtl c hcr]
            have hlen : cs.length ≤ k := by
              simp only [List.length_cons] at hs
              omega
            exact ih cs hlen (fun b hb => hsR b (List.mem_cons_of_mem c hb))

theorem isInfix_of_cnt_pos (n : Nat) (tl : List Nat) :
    ∀ s : List Nat, 0 < cntAux n tl 0 s → (n :: tl) <:+: s := by
  intro s
  induction s with
  | nil => intro h; exact absurd h (lt_irrefl 0)
  | cons c cs ih =>
      intro h
      rw [cntAux_cons] at h
      by_cases hm : (n :: tl).isPrefixOf (c :: cs) = true
      · exact List.IsPrefix.isInfix ((isPrefixOf_true_iff _ _).mp hm)
      · rw [if_neg hm] at h
        exact List.infix_cons (ih h)

theorem fnmatchFuel_nil_pat (f : Nat) (l : List Char) (hf : 1 ≤ f) :
    fnmatchFuel f [] l = l.isEmpty := by
  cases f with
  | zero => exact absurd hf (by omega)
  | succ g => rfl

theorem fnmatchFuel_star : ∀ (f : Nat) (l : List Char), l.length + 2 ≤ f →
    fnmatchFuel f ['*'] l = true := by
  intro f
  induction f with
  | zero => intro l h; exact absurd h (by omega)
  | succ g ih =>
      intro l h
      cases l with
      | nil =>
          have h1 : fnmatchFuel (g + 1) ['*'] ([] : List Char) =
              (fnmatchFuel g [] [] || false) := rfl
          rw [h1, fnmatchFuel_nil_pat g [] (by simp at h; omega)]
          rfl
      | cons c cs =>
          have h1 : fnmatchFuel (g + 1) ['*'] (c :: cs) =
              (fnmatchFuel g [] (c :: cs) || fnmatchFuel g ['*'] cs) := rfl
          rw [h1, ih cs (by simp at h; omega), Bool.or_true]

theorem fnmatchFuel_dot_star_nil (f : Nat) (hf : 1 ≤ f) :
    fnmatchFuel f ['.', '*'] [] = false := by
  cases f with
  | zero => exact absurd hf (by omega)
  | succ g => rfl

theorem fnmatchFuel_dot_star_cons (f : Nat) (c : Char) (cs : List Char)
    (h : cs.length + 3 ≤ f) :
    fnmatchFuel f ['.', '*'] (c :: cs) = ('.' == c) := by
  cases f with
  | zero => exact absurd h (by omega)
  | succ g =>
      have h1 : fnmatchFuel (g + 1) ['.', '*'] (c :: cs) =
          ('.' == c && fnmatchFuel g ['*'] cs) := rfl
      rw [h1, fnmatchFuel_star g cs (by omega), Bool.and_true]

theorem fnmatchFuel_star_dot_star : ∀ (f : Nat) (l : List Char), l.length + 4 ≤ f →
    fnmatchFuel f ['*', '.', '*'] l = l.contains '.' := by
  intro f
  induction f with
  | zero => intro l h; exact absurd h (by omega)
  | succ g ih =>
      intro l h
      cases l with
      | nil =>
          have h1 : fnmatchFuel (g + 1) ['*', '.', '*'] ([] : List Char) =
              (fnmatchFuel g ['.', '*'] [] || false) := rfl
          rw [h1, fnmatchFuel_dot_star_nil g (by simp at h; omega)]
          rfl
      | cons c cs =>
          have h1 : fnmatchFuel (g + 1) ['*', '.', '*'] (c :: cs) =
              (fnmatchFuel g ['.', '*'] (c :: cs) || fnmatchFuel g ['*', '.', '*'] cs) := rfl
          rw [h1, fnmatchFuel_dot_star_cons g c cs (by simp at h; omega),
            ih cs (by simp at h; omega), List.contains_cons]

theorem glob_star_eval (name : List Char) :
    globMatch ['*', '.', '*'] name = matchesAnyExt name := by
  unfold globMatch matchesAnyExt
  have hpat : (((['*', '.', '*'] : List Char).head? == some '.') : Bool) = false := by decide
  rw [hpat]
  by_cases hh : (name.head? == some '.') = true
  · rw [hh]
    simp
  · have hh2 : (name.head? == some '.') = false := by
      cases hv : (name.head? == some '.') with
      | false => rfl
      | true => exact absurd hv hh
    rw [hh2]
    simp only [Bool.not_false, Bool.and_true, Bool.false_and, if_false, Bool.true_and]
    show fnmatchFuel (3 + name.length + 1) ['*', '.', '*'] name = name.contains '.'
    exact fnmatchFuel_star_dot_star (3 + name.length + 1) name (by omega)

theorem foldl_glob_eq (dir : List SFile) :
    ∀ (exts : List (List Char)) (acc : List SFile),
      exts.foldl (fun a e => a ++ globDir dir (extPattern e)) acc =
        acc ++ flatMapL (fun e => globDir dir (extPattern e)) exts := by
  intro exts
  induction exts with
  | nil => intro acc; simp [flatMapL]
  | cons e es ih =>
      intro acc
      rw [List.foldl_cons, ih]
      show acc ++ globDir dir (extPattern e) ++ flatMapL (fun x => globDir dir (extPattern x)) es =
        acc ++ (globDir dir (extPattern e) ++ flatMapL (fun x => globDir dir (extPattern x)) es)
      rw [List.append_assoc]

theorem scanEnumerate_eq (dir : List SFile) (exts : List (List Char)) :
    scanEnumerate dir exts = flatMapL (fun e => globDir dir (extPattern e)) exts := by
  unfold scanEnumerate
  rw [foldl_glob_eq, List.nil_append]

theorem scanEnumerate_nil_dir (exts : List (List Char)) : scanEnumerate [] exts = [] := by
  rw [scanEnumerate_eq]
  induction exts with
  | nil => rfl
  | cons e es ih => simpa [flatMapL, globDir] using ih

theorem scanLoop_results (N : List Nat) (rep : Option (List Nat)) :
    ∀ files : List SFile,
      (scanLoop N rep files).1 = files.filter (fun f => containsSub N f.content) := by
  intro files
  induction files with
  | nil => rfl
  | cons f fs ih =>
      by_cases hc : containsSub N f.content = true <;>
        simp [scanLoop, List.filter_cons, hc, ih]

theorem scanLoop_updated_none (N : List Nat) :
    ∀ files : List SFile, (scanLoop N none files).2.1 = files := by
  intro files
  induction files with
  | nil => rfl
  | cons f fs ih => simp [scanLoop, ih]

theorem scanLoop_updated_some (N R : List Nat) :
    ∀ files : List SFile,
      (scanLoop N (some R) files).2.1 =
        files.map (fun f =>
          if containsSub N f.content then ⟨f.name, pyReplace f.content N R⟩ else f) := by
  intro files
  induction files with
  | nil => rfl
  | cons f fs ih => simp [scanLoop, ih]

theorem sum_sq_zero_iff : ∀ l : List ℚ, ((l.map (fun x => x ^ 2)).sum = 0 ↔ ∀ x ∈ l, x = 0) := by
  intro l
  induction l with
  | nil => simp
  | cons a as ih =>
      simp only [List.map_cons, List.sum_cons, List.mem_cons]
      constructor
      · intro h
        have h2 : 0 ≤ (as.map (fun x => x ^ 2)).sum := by
          refine List.sum_nonneg ?_
          intro x hx
          obtain ⟨y, _, rfl⟩ := List.mem_map.mp hx
          exact sq_nonneg y
        have hsplit := (add_eq_zero_iff_of_nonneg (sq_nonneg a) h2).mp h
        intro x hx
        rcases hx with hx | hx
        · rw [hx]
          exact (pow_eq_zero_iff (two_ne_zero)).mp hsplit.1
        · exact ih.mp hsplit.2 x hx
      · intro h
        have ha : a = 0 := h a (Or.inl rfl)
        have hs : (as.map (fun x => x ^ 2)).sum = 0 :=
          ih.mpr (fun x hx => h x (Or.inr hx))
        rw [ha, hs]
        ring

theorem sum_const_eq (c : ℚ) : ∀ l : List ℚ, (∀ y ∈ l, y = c) → l.sum = l.length * c := by
  intro l
  induction l with
  | nil => intro _; simp
  | cons a as ih =>
      intro h
      have ha : a = c := h a (List.mem_cons_self a as)
      have hs := ih (fun y hy => h y (List.mem_cons_of_mem a hy))
      rw [List.sum_cons, ha, hs, List.length_cons]
      push_cast
      ring

theorem npMean_const (c : ℚ) (ys : List ℚ) (h : ys ≠ []) (hc : ∀ y ∈ ys, y = c) :
    npMean ys = c := by
  unfold npMean
  rw [sum_const_eq c ys hc]
  have hlen : (ys.length : ℚ) ≠ 0 :=
    Nat.cast_ne_zero.mpr (fun h0 => h (List.length_eq_zero.mp h0))
  exact mul_div_cancel_left₀ c hlen

/-- C1 counterexample: a directory holding only a file named README, scanned
with the wildcard extension: the enumeration comes back empty, not the whole
directory, because the glob pattern star-dot-star demands a dot in the name. -/
theorem scanStar_misses_extensionless_cex :
    scanEnumerate [⟨['R', 'E', 'A', 'D', 'M', 'E'], []⟩] [['*']] = [] ∧
      ([⟨['R', 'E', 'A', 'D', 'M', 'E'], []⟩] : List SFile) ≠ [] := by
  constructor
  · decide
  · decide

/-- C1 (amended): enumerating with the wildcard extension and no find string
returns, in directory order, exactly the files whose name contains a dot and
does not begin with one; files with extensionless names (and hidden files) are
omitted rather than every file being returned. -/
theorem scanStar_matches_dotted_names (dir : List SFile) :
    scanEnumerate dir [['*']] = dir.filter (fun f => matchesAnyExt f.name) := by
  rw [scanEnumerate_eq]
  show globDir dir (extPattern ['*']) ++ [] = _
  rw [List.append_nil]
  unfold globDir
  refine List.filter_congr ?_
  intro f _
  show globMatch ['*', '.', '*'] f.name = matchesAnyExt f.name
  exact glob_star_eval f.name

/-- C2 counterexample: calling the scanner directly (not through the CLI) with
a missing root path performs no validation at all: it completes normally with
an empty enumeration and zero reads instead of failing before traversal. -/
theorem scanFiles_direct_no_check_cex :
    scanFilesRun FS.missing [['*']] (some [1]) (some [2]) = ([], [], 0) := rfl

/-- C2 (amended): the eager path check exists only on the CLI route: for a
root that is not an existing directory, handle_options fails with the invalid
path error before any enumeration, while a direct call of scan_files performs
no check and simply behaves as if the enumeration were empty. -/
theorem path_check_cli_only (root : FS) (exts : List (List Char))
    (find rep : Option (List Nat)) (h : isdir root = false) :
    mainRun root exts find rep =
        Except.error "The path you specified does not exist." ∧
      scanFilesRun root exts find rep = findInFiles [] find rep := by
  have hops : handleOptions root = Except.error "The path you specified does not exist." := by
    simp [handleOptions, h]
  have hent : fsEntries root = [] := by
    cases root with
    | missing => rfl
    | nondir => rfl
    | dir es => simp [isdir] at h
  constructor
  · simp [mainRun, hops]
  · unfold scanFilesRun
    rw [hent, scanEnumerate_nil_dir]

/-- C2 witness: the amended statement instantiated at a missing root. -/
theorem path_check_cli_only_witness :
    mainRun FS.missing [['t', 'x', 't']] (some [7]) none =
        Except.error "The path you specified does not exist." ∧
      scanFilesRun FS.missing [['t', 'x', 't']] (some [7]) none =
        findInFiles [] (some [7]) none :=
  path_check_cli_only FS.missing [['t', 'x', 't']] (some [7]) none rfl

/-- C3 counterexample: content abb, needle ab (present exactly once),
replacement a: the rewrite yields ab, which still contains the needle once —
so after the pass the needle count is not zero and a re-scan for the needle is
non-empty, contradicting the claim. -/
theorem replace_roundtrip_cex :
    pyCount [97, 98, 98] [97, 98] = 1 ∧
      pyReplace [97, 98, 98] [97, 98] [97] = [97, 98] ∧
      pyCount (pyReplace [97, 98, 98] [97, 98] [97]) [97, 98] = 1 ∧
      containsSub [97, 98] (pyReplace [97, 98, 98] [97, 98] [97]) = true := by
  refine ⟨by decide, by decide, by decide, by decide⟩

/-- C3 (amended): the rewrite pass stores the original contents with every
leftmost non-overlapping occurrence of the needle replaced.  When needle and
replacement are nonempty and share no byte, the result contains the needle
zero times, so re-scanning for it yields nothing; when additionally no byte of
the replacement occurs in the original contents, the result contains the
replacement exactly k times (non-overlapping count) and scanning for it is
non-empty. -/
theorem replace_roundtrip_amended (s N R : List Nat) (nm : List Char)
    (hN : N ≠ []) (hR : R ≠ []) (hdisj : ∀ b ∈ N, b ∉ R) (hk : 1 ≤ pyCount s N) :
    (scanLoop N (some R) [⟨nm, s⟩]).2.1 = [⟨nm, pyReplace s N R⟩] ∧
      containsSub N (pyReplace s N R) = false ∧
      pyCount (pyReplace s N R) N = 0 ∧
      ((∀ b ∈ s, b ∉ R) →
        pyCount (pyReplace s N R) R = pyCount s N ∧
          containsSub R (pyReplace s N R) = true) := by
  obtain ⟨n, tl, rfl⟩ := List.exists_cons_of_ne_nil hN
  obtain ⟨r, rtl, rfl⟩ := List.exists_cons_of_ne_nil hR
  have hcnt : 0 < cntAux n tl 0 s := hk
  have hcs : containsSub (n :: tl) s = true :=
    (containsSub_iff (n :: tl) s).mpr (isInfix_of_cnt_pos n tl s hcnt)
  have hni : ¬ (n :: tl) <:+: replAux n tl (r :: rtl) 0 s :=
    not_infix_replAux n tl r rtl hdisj s.length s (le_refl s.length)
  refine ⟨?_, ?_, ?_, ?_⟩
  · simp [scanLoop, hcs]
  · show containsSub (n :: tl) (replAux n tl (r :: rtl) 0 s) = false
    cases hx : containsSub (n :: tl) (replAux n tl (r :: rtl) 0 s) with
    | false => rfl
    | true => exact absurd ((containsSub_iff _ _).mp hx) hni
  · show cntAux n tl 0 (replAux n tl (r :: rtl) 0 s) = 0
    by_contra hz
    exact hni (isInfix_of_cnt_pos n tl _ (Nat.pos_of_ne_zero hz))
  · intro hsR
    have hcr : cntAux r rtl 0 (replAux n tl (r :: rtl) 0 s) = cntAux n tl 0 s :=
      cnt_replAux n tl r rtl s.length s (le_refl s.length) hsR
    refine ⟨hcr, ?_⟩
    have hpos : 0 < cntAux r rtl 0 (replAux n tl (r :: rtl) 0 s) := by
      rw [hcr]
      exact hcnt
    exact (containsSub_iff _ _).mpr (isInfix_of_cnt_pos r rtl _ hpos)

/-- C3 witness: the amended statement instantiated at content 1,1,2 with
needle byte 1 (two occurrences) and replacement byte 3. -/
theorem replace_roundtrip_amended_witness :
    (scanLoop [1] (some [3]) [⟨[], [1, 1, 2]⟩]).2.1 = [⟨[], pyReplace [1, 1, 2] [1] [3]⟩] ∧
      containsSub [1] (pyReplace [1, 1, 2] [1] [3]) = false ∧
      pyCount (pyReplace [1, 1, 2] [1] [3]) [1] = 0 ∧
      ((∀ b ∈ [1, 1, 2], b ∉ ([3] : List Nat)) →
        pyCount (pyReplace [1, 1, 2] [1] [3]) [3] = pyCount [1, 1, 2] [1] ∧
          containsSub [3] (pyReplace [1, 1, 2] [1] [3]) = true) :=
  replace_roundtrip_amended [1, 1, 2] [1] [3] [] (by decide) (by decide)
    (by decide) (by decide)

/-- C4: with a present needle the content filter returns exactly the files
whose full raw-byte contents contain the needle as a substring, kept in
enumeration order: the result equals the filter of the input list, is a
sublist of it, and membership is containment of the needle. -/
theorem find_filter_spec (files : List SFile) (N : List Nat) (rep : Option (List Nat)) :
    (findInFiles files (some N) rep).1 = files.filter (fun f => containsSub N f.content) ∧
      ((findInFiles files (some N) rep).1).Sublist files ∧
      (∀ f : SFile, f ∈ (findInFiles files (some N) rep).1 ↔
        f ∈ files ∧ N <:+: f.content) := by
  have h1 : (findInFiles files (some N) rep).1 =
      files.filter (fun f => containsSub N f.content) := scanLoop_results N rep files
  refine ⟨h1, ?_, ?_⟩
  · rw [h1]
    exact List.filter_sublist files
  · intro f
    rw [h1, List.mem_filter, containsSub_iff]

/-- C5: frame property of the rewrite: with find absent, or with replace
absent, the on-disk contents of every file are unchanged; with both set the
on-disk list is the input with exactly the needle-containing files rewritten
in place and every other file untouched, positions preserved. -/
theorem replace_frame_spec (files : List SFile) (N R : List Nat)
    (rep : Option (List Nat)) :
    (findInFiles files none rep).2.1 = files ∧
      (findInFiles files (some N) none).2.1 = files ∧
      (findInFiles files (some N) (some R)).2.1 =
        files.map (fun f =>
          if containsSub N f.content then ⟨f.name, pyReplace f.content N R⟩ else f) := by
  exact ⟨rfl, scanLoop_updated_none N files, scanLoop_updated_some N R files⟩

/-- C6: with the needle absent the filter stage returns the input list
unchanged, leaves every file as it was, and performs zero file reads. -/
theorem find_absent_identity (files : List SFile) (rep : Option (List Nat)) :
    findInFiles files none rep = (files, files, 0) := rfl

/-- C7: the enumerator globs each requested extension independently and
concatenates the per-extension results in request order with no
deduplication, so a file matching two requested extension filters is listed at
least twice. -/
theorem extensions_concat_no_dedup (dir : List SFile) (exts : List (List Char))
    (f : SFile) (e1 e2 : List Char)
    (h1 : globMatch (extPattern e1) f.name = true)
    (h2 : globMatch (extPattern e2) f.name = true) (hf : f ∈ dir) :
    scanEnumerate dir exts = flatMapL (fun e => globDir dir (extPattern e)) exts ∧
      2 ≤ List.count f (scanEnumerate dir [e1, e2]) := by
  refine ⟨scanEnumerate_eq dir exts, ?_⟩
  rw [scanEnumerate_eq]
  show 2 ≤ List.count f (globDir dir (extPattern e1) ++ (globDir dir (extPattern e2) ++ []))
  rw [List.count_append, List.count_append]
  have hm1 : f ∈ globDir dir (extPattern e1) := List.mem_filter.mpr ⟨hf, h1⟩
  have hm2 : f ∈ globDir dir (extPattern e2) := List.mem_filter.mpr ⟨hf, h2⟩
  have hc1 : 0 < List.count f (globDir dir (extPattern e1)) := List.count_pos_iff.mpr hm1
  have hc2 : 0 < List.count f (globDir dir (extPattern e2)) := List.count_pos_iff.mpr hm2
  omega

/-- C7 witness: a file named a.txt matches both the wildcard extension and the
txt extension, and is listed twice when both are requested. -/
theorem extensions_concat_no_dedup_witness :
    scanEnumerate [⟨['a', '.', 't', 'x', 't'], []⟩] [['*'], ['t', 'x', 't']] =
        flatMapL (fun e => globDir [⟨['a', '.', 't', 'x', 't'], []⟩] (extPattern e))
          [['*'], ['t', 'x', 't']] ∧
      2 ≤ List.count (⟨['a', '.', 't', 'x', 't'], []⟩ : SFile)
          (scanEnumerate [⟨['a', '.', 't', 'x', 't'], []⟩] [['*'], ['t', 'x', 't']]) :=
  extensions_concat_no_dedup [⟨['a', '.', 't', 'x', 't'], []⟩] [['*'], ['t', 'x', 't']]
    ⟨['a', '.', 't', 'x', 't'], []⟩ ['*'] ['t', 'x', 't'] (by decide) (by decide) (by decide)

/-- C8: r_squared divides by zero exactly when the actuals are constant:
SS_tot vanishes iff all actuals are equal, and for non-constant actuals SS_tot
is nonzero and the function returns 1 - SS_res / SS_tot. -/
theorem r_squared_divzero_iff (ps ys : List ℚ) (h : ys ≠ []) :
    (ssTot ys = 0 ↔ ∃ c : ℚ, ∀ y ∈ ys, y = c) ∧
      ((¬ ∃ c : ℚ, ∀ y ∈ ys, y = c) →
        ssTot ys ≠ 0 ∧ rSquared ps ys = 1 - ssRes ps ys / ssTot ys) := by
  have hmaps : ys.map (fun y => (y - npMean ys) ^ 2) =
      (ys.map (fun y => y - npMean ys)).map (fun x => x ^ 2) := by
    rw [List.map_map]
    rfl
  have hiff : ssTot ys = 0 ↔ ∃ c : ℚ, ∀ y ∈ ys, y = c := by
    unfold ssTot
    rw [hmaps, sum_sq_zero_iff]
    constructor
    · intro hz
      refine ⟨npMean ys, fun y hy => ?_⟩
      have hy0 := hz (y - npMean ys) (List.mem_map.mpr ⟨y, hy, rfl⟩)
      linarith
    · rintro ⟨c, hc⟩ x hx
      obtain ⟨y, hy, rfl⟩ := List.mem_map.mp hx
      rw [hc y hy, npMean_const c ys h hc]
      ring
  exact ⟨hiff, fun hnc => ⟨fun hz => hnc (hiff.mp hz), rfl⟩⟩

/-- C8 witness: the statement instantiated at actuals 1, 2 (not constant). -/
theorem r_squared_divzero_iff_witness :
    (ssTot [(1 : ℚ), 2] = 0 ↔ ∃ c : ℚ, ∀ y ∈ [(1 : ℚ), 2], y = c) ∧
      ((¬ ∃ c : ℚ, ∀ y ∈ [(1 : ℚ), 2], y = c) →
        ssTot [(1 : ℚ), 2] ≠ 0 ∧
          rSquared [(1 : ℚ), 2] [(1 : ℚ), 2] =
            1 - ssRes [(1 : ℚ), 2] [(1 : ℚ), 2] / ssTot [(1 : ℚ), 2]) :=
  r_squared_divzero_iff [(1 : ℚ), 2] [(1 : ℚ), 2] (List.cons_ne_nil 1 [2])

/-- C9: calling wmape with norms and weights omitted gives the same value as
passing the actuals for both: the optional sequences default to actuals. -/
theorem wmape_defaults (ps ys : List ℚ) :
    wmape ps ys none none = wmape ps ys (some ys) (some ys) := rfl

/-- C10: monthdelta clamps the day against the source month (always a no-op
for a valid date) rather than the target month, so adding one month to
2020-01-31 fails with a ValueError from the final replace instead of returning
a datetime with the day clamped to 29. -/
theorem monthdelta_overflow_bug :
    monthdelta ⟨2020, 1, 31⟩ 1 = Except.error "ValueError: field out of range" := rfl
